import Mathlib

/-!
Shallow embedding of the utility library `src/index.ts` (slugify,
resolveObjectPath, extractNumber, transformEmptyValues, replaceString).

JavaScript runtime values are modelled by the inductive type `JValue`
(mappings are association lists in insertion order, numbers are exact
rationals — IEEE-754 rounding and NaN are abstracted away, which no claim
below depends on).  String primitives from the JS standard library that the
code calls (`split`, `trim`, `toLowerCase`, `match`, `parseInt`,
`parseFloat`, `String.prototype.replace` with a regular expression) are
modelled explicitly on character lists; case mapping is modelled on the
ASCII range, which is all the source's regular expressions (`\w`, `\d`,
literal keys) distinguish.
-/

/-- Model of a JavaScript runtime value. -/
inductive JValue where
  | null
  | undef
  | bool (b : Bool)
  | num (q : ℚ)
  | str (s : String)
  | arr (elems : List JValue)
  | obj (fields : List (String × JValue))

/-- JS truthiness (`Boolean(v)`).  The model has no NaN; `0` and the empty
string are the falsy numbers/strings. -/
def JValue.truthy : JValue → Bool
  | .null => false
  | .undef => false
  | .bool b => b
  | .num q => !(q == 0)
  | .str s => !(s == "")
  | .arr _ => true
  | .obj _ => true

/-- `Array.prototype.flat()` with depth 1: array elements are spliced in,
everything else is kept. -/
def flattenOne (xs : List JValue) : List JValue :=
  xs.flatMap (fun v =>
    match v with
    | .arr ys => ys
    | v => [v])

/-- JS property read `current[key]` as used by `traverse`.  Mappings look the
key up in insertion order (JS object keys are unique).  Arrays never reach
this lookup in the source (the fan-out branch handles them first), and
property reads on primitives are modelled as `undefined` (exotic string
properties such as `length` are outside the model and outside every claim). -/
def jsGet (current : JValue) (key : String) : JValue :=
  match current with
  | .obj fields =>
      match fields.find? (fun kv => kv.1 == key) with
      | some kv => kv.2
      | none => .undef
  | _ => .undef

mutual

/-- `traverse` from `resolveObjectPath` (src/index.ts lines 38-56):
`null`/`undefined` nodes give `undefined`; an array maps the remaining path
over every element (`jsTraverseList`), keeps the truthy results
(`.filter(Boolean)`) and flattens one level; any other node looks up the
first key and either stops at `undefined`, returns the value on the last
segment, or recurses with the remaining segments.  (With an empty key list —
unreachable from `resolveObjectPath` — the destructured first key is the JS
`undefined`, whose lookup yields `undefined`.) -/
def jsTraverse (current : JValue) (keyLeft : List String) : JValue :=
  match current with
  | .null => .undef
  | .undef => .undef
  | .arr elems =>
      let results := (jsTraverseList elems keyLeft).filter (fun r => r.truthy)
      if results.isEmpty then .undef else .arr (flattenOne results)
  | current =>
      match keyLeft with
      | [] => .undef
      | firstKey :: restKeys =>
          match jsGet current firstKey with
          | .undef => .undef
          | next => if restKeys.isEmpty then next else jsTraverse next restKeys
termination_by (keyLeft.length, sizeOf current)
decreasing_by
  · exact Prod.Lex.right _ (by simp <;> omega)
  · exact Prod.Lex.left _ _ (by simp)

/-- `current.map((item) => traverse(item, [...keyLeft]))` from the array
branch of `traverse`. -/
def jsTraverseList (elems : List JValue) (keyLeft : List String) : List JValue :=
  match elems with
  | [] => []
  | e :: rest => jsTraverse e keyLeft :: jsTraverseList rest keyLeft
termination_by (keyLeft.length, sizeOf elems)
decreasing_by
  · exact Prod.Lex.right _ (by simp <;> omega)
  · exact Prod.Lex.right _ (by simp <;> omega)

end

/-- Model of `path.split(".")` on the character level: split the character
list at every dot (`"".split(".") == [""]`, empty segments preserved). -/
def splitDotChars : List Char → List (List Char)
  | [] => [[]]
  | c :: rest =>
      if c == '.' then [] :: splitDotChars rest
      else
        match splitDotChars rest with
        | [] => [[c]]
        | seg :: segs => (c :: seg) :: segs

/-- `path.split(".")`. -/
def jsSplitDot (s : String) : List String :=
  (splitDotChars s.toList).map String.mk

/-- `resolveObjectPath` (src/index.ts lines 25-59): falsy data gives
`undefined`, an empty path gives the data back, a path with an empty segment
gives `undefined`, otherwise traversal starts. -/
def resolveObjectPath (data : JValue) (path : String) : JValue :=
  if !data.truthy then .undef
  else if path == "" then data
  else
    let keys := jsSplitDot path
    if keys.any (fun key => key == "") then .undef
    else jsTraverse data keys

/-! ## slugify (src/index.ts lines 6-11) -/

/-- The `\w` character class of the source's regular expressions:
ASCII letters, digits and underscore. -/
def isWordChar (c : Char) : Bool :=
  (65 ≤ c.toNat && c.toNat ≤ 90) || (97 ≤ c.toNat && c.toNat ≤ 122) ||
    (48 ≤ c.toNat && c.toNat ≤ 57) || c.toNat == 95

/-- `String.prototype.toLowerCase` on one character, modelled on the ASCII
range (the only range the source's `\w`-based regexes distinguish). -/
def jsToLowerChar (c : Char) : Char :=
  if 65 ≤ c.toNat ∧ c.toNat ≤ 90 then Char.ofNat (c.toNat + 32) else c

/-- `text.toLowerCase()`. -/
def jsToLower (s : String) : String :=
  String.mk (s.toList.map jsToLowerChar)

/-- `.replace(/[^\w ]+/g, "")`: deleting every maximal run of characters that
are neither word characters nor spaces keeps exactly the `[\w ]` characters. -/
def stripNonWord (cs : List Char) : List Char :=
  cs.filter (fun c => isWordChar c || c == ' ')

/-- `.replace(/ +/g, "-")`: each maximal run of spaces becomes one hyphen.
The flag records whether the scan is inside a run whose hyphen was emitted. -/
def collapseSpaces : Bool → List Char → List Char
  | _, [] => []
  | inRun, c :: rest =>
      if c == ' ' then
        if inRun then collapseSpaces true rest
        else '-' :: collapseSpaces true rest
      else c :: collapseSpaces false rest

/-- `slugify` (src/index.ts lines 6-11): lowercase, strip non-`[\w ]`,
collapse space runs to single hyphens. -/
def slugify (text : String) : String :=
  String.mk (collapseSpaces false (stripNonWord (jsToLower text).toList))

/-! ## extractNumber (src/index.ts lines 76-112) -/

/-- The whitespace set of JS `trim`/`parseInt`/`parseFloat` (ASCII whitespace
plus NBSP, the line separators and the BOM; the rarer Unicode space code
points are outside the model and outside every claim). -/
def isJsWhitespace (c : Char) : Bool :=
  c.toNat == 9 || c.toNat == 10 || c.toNat == 11 || c.toNat == 12 ||
    c.toNat == 13 || c.toNat == 32 || c.toNat == 160 ||
    c.toNat == 0x2028 || c.toNat == 0x2029 || c.toNat == 0xfeff

/-- `s.trim()`. -/
def jsTrim (s : String) : String :=
  String.mk (((s.toList.dropWhile isJsWhitespace).reverse.dropWhile
    isJsWhitespace).reverse)

/-- One attempt of the core `\d+(?:\.\d+)?` at the current position:
greedy digits, then (when `dec`) an optional dot-plus-digits fraction that is
taken only when at least one digit follows the dot.  Returns the matched
characters and the remaining suffix. -/
def numCore (dec : Bool) (cs : List Char) : Option (List Char × List Char) :=
  let ds := cs.takeWhile Char.isDigit
  if ds.isEmpty then none
  else
    let rest := cs.drop ds.length
    if dec then
      match rest with
      | '.' :: r2 =>
          let fs := r2.takeWhile Char.isDigit
          if fs.isEmpty then some (ds, rest)
          else some (ds ++ '.' :: fs, r2.drop fs.length)
      | _ => some (ds, rest)
    else some (ds, rest)

/-- One attempt of the full pattern `-?\d+(?:\.\d+)?` (sign only when `neg`)
at the current position, with the regex backtracking on the optional sign:
a leading `-` is taken greedily, and if no digits follow, the attempt is
retried without consuming the sign (which then also fails, since `\d+`
cannot match at `-`). -/
def numMatchAt (neg dec : Bool) (cs : List Char) : Option (List Char × List Char) :=
  match cs with
  | '-' :: r =>
      if neg then
        match numCore dec r with
        | some (m, rest) => some ('-' :: m, rest)
        | none => numCore dec cs
      else numCore dec cs
  | _ => numCore dec cs

/-- Fuelled body of `numMatches`; the fuel only bounds recursion (each step
strictly shortens the character list, by `numMatchAt_length_lt`), so with
`cs.length` as initial fuel the `0` branch is never reached. -/
def numMatchesGo (neg dec : Bool) : Nat → List Char → List (List Char)
  | 0, _ => []
  | fuel + 1, cs =>
      match numMatchAt neg dec cs with
      | some (m, rest) => m :: numMatchesGo neg dec fuel rest
      | none =>
          match cs with
          | [] => []
          | _ :: tail => numMatchesGo neg dec fuel tail

/-- `str.match(regex)` with the `g` flag for the number pattern: scan left to
right; at a match, continue after it; otherwise advance one character. -/
def numMatches (neg dec : Bool) (cs : List Char) : List (List Char) :=
  numMatchesGo neg dec cs.length cs

/-- Digit run to its base-10 value. -/
def digitsToNat (ds : List Char) : Nat :=
  ds.foldl (fun n c => 10 * n + (c.toNat - 48)) 0

/-- JS `parseInt(s, 10)`: skip leading whitespace, an optional sign, then the
longest run of decimal digits; NaN (modelled as `none`) when that run is
empty. -/
def parseIntJS (s : String) : Option Int :=
  let cs := s.toList.dropWhile isJsWhitespace
  let signed : Bool × List Char :=
    match cs with
    | c :: r =>
        if c == '-' then (true, r)
        else if c == '+' then (false, r)
        else (false, c :: r)
    | [] => (false, [])
  let ds := signed.2.takeWhile Char.isDigit
  if ds.isEmpty then none
  else some (if signed.1 then -(digitsToNat ds : Int) else (digitsToNat ds : Int))

/-- JS `parseFloat(s)`: skip leading whitespace, an optional sign, then the
longest `digits [. digits] [e [sign] digits]` prefix, requiring at least one
digit in the mantissa; NaN is `none`.  (IEEE-754 rounding is abstracted to
exact rationals; `Infinity` literals are outside the model and never arise
from the source's digit-only matches.) -/
def parseFloatJS (s : String) : Option ℚ :=
  let cs := s.toList.dropWhile isJsWhitespace
  let signed : Bool × List Char :=
    match cs with
    | c :: r =>
        if c == '-' then (true, r)
        else if c == '+' then (false, r)
        else (false, c :: r)
    | [] => (false, [])
  let ds := signed.2.takeWhile Char.isDigit
  let rest1 := signed.2.drop ds.length
  let fracRest : List Char × List Char :=
    match rest1 with
    | '.' :: r2 => (r2.takeWhile Char.isDigit, r2.drop (r2.takeWhile Char.isDigit).length)
    | _ => ([], rest1)
  if ds.isEmpty && fracRest.1.isEmpty then none
  else
    let mantissa : ℚ :=
      (digitsToNat ds : ℚ) + (digitsToNat fracRest.1 : ℚ) / (10 : ℚ) ^ fracRest.1.length
    let expVal : Int :=
      match fracRest.2 with
      | 'e' :: '-' :: r3 => if (r3.takeWhile Char.isDigit).isEmpty then 0 else
          -(digitsToNat (r3.takeWhile Char.isDigit) : Int)
      | 'e' :: '+' :: r3 => if (r3.takeWhile Char.isDigit).isEmpty then 0 else
          (digitsToNat (r3.takeWhile Char.isDigit) : Int)
      | 'e' :: r3 => if (r3.takeWhile Char.isDigit).isEmpty then 0 else
          (digitsToNat (r3.takeWhile Char.isDigit) : Int)
      | 'E' :: '-' :: r3 => if (r3.takeWhile Char.isDigit).isEmpty then 0 else
          -(digitsToNat (r3.takeWhile Char.isDigit) : Int)
      | 'E' :: '+' :: r3 => if (r3.takeWhile Char.isDigit).isEmpty then 0 else
          (digitsToNat (r3.takeWhile Char.isDigit) : Int)
      | 'E' :: r3 => if (r3.takeWhile Char.isDigit).isEmpty then 0 else
          (digitsToNat (r3.takeWhile Char.isDigit) : Int)
      | _ => 0
    let value := mantissa * (10 : ℚ) ^ expVal
    some (if signed.1 then -value else value)

/-- Options of `extractNumber` with the source's defaults (the JS default
number 0 is the rational 0). -/
structure ExtractNumberOptions where
  allowDecimals : Bool := false
  allowNegative : Bool := false
  defaultValue : ℚ := 0

/-- `extractNumber` (src/index.ts lines 76-112) on string inputs (non-string
inputs throw a TypeError before this logic): empty trimmed input or no match
gives the default; otherwise all matches are concatenated and parsed with
`parseFloat` (decimals allowed) or `parseInt(·, 10)`, falling back to the
default when the parse is NaN. -/
def extractNumber (s : String) (options : ExtractNumberOptions := {}) : ℚ :=
  if jsTrim s == "" then options.defaultValue
  else
    match numMatches options.allowNegative options.allowDecimals s.toList with
    | [] => options.defaultValue
    | ms =>
        let number := String.mk ms.flatten
        let result : Option ℚ :=
          if options.allowDecimals then parseFloatJS number
          else (parseIntJS number).map (fun i => (i : ℚ))
        match result with
        | none => options.defaultValue
        | some q => q

/-! ## transformEmptyValues (src/index.ts lines 141-202) -/

/-- The two error kinds the library throws: `TypeError` on a wrongly shaped
argument and `SyntaxError` from `new RegExp` on an invalid pattern. -/
inductive JsError where
  | typeError (msg : String)
  | syntaxError (msg : String)

/-- Options of `transformEmptyValues` with the source's defaults resolved
(`isEmptyFn` is the optional caller-supplied emptiness predicate). -/
structure ConversionOptions where
  replaceWith : JValue := .null
  trimStrings : Bool := true
  processEmptyArrays : Bool := false
  isEmptyFn : Option (JValue → Bool) := none

/-- The `isEmpty` closure (src/index.ts lines 159-171): a supplied
`isEmptyFn` alone decides; otherwise a string is empty when (trimmed, if
`trimStrings`) it equals `""`, an array when `processEmptyArrays` is set and
it has no elements, and nothing else ever is. -/
def isEmptyB (o : ConversionOptions) (value : JValue) : Bool :=
  match o.isEmptyFn with
  | some f => f value
  | none =>
      match value with
      | .str s => if o.trimStrings then jsTrim s == "" else s == ""
      | .arr elems => o.processEmptyArrays && elems.isEmpty
      | _ => false

mutual

/-- Body of `transformEmptyValues` after input validation (src/index.ts
lines 173-201): an empty input yields the replacement directly; arrays and
mappings map the per-member treatment over their members; on any other
(unreachable from the wrapper) input `Object.entries` yields nothing and an
empty mapping results. -/
def transformGo (o : ConversionOptions) (input : JValue) : JValue :=
  if isEmptyB o input then o.replaceWith
  else
    match input with
    | .arr elems => .arr (transformGoList o elems)
    | .obj fields => .obj (transformGoFields o fields)
    | _ => .obj []
termination_by (sizeOf input, 0)

/-- The per-member treatment shared by the array and mapping branches:
`typeof value === "object" && value !== null` recurses into the transformer,
anything else is replaced when empty and kept otherwise. -/
def transformItem (o : ConversionOptions) (item : JValue) : JValue :=
  match item with
  | .arr elems => transformGo o (.arr elems)
  | .obj fields => transformGo o (.obj fields)
  | _ => if isEmptyB o item then o.replaceWith else item
termination_by (sizeOf item, 1)

/-- `input.map(...)` over an array's elements. -/
def transformGoList (o : ConversionOptions) : List JValue → List JValue
  | [] => []
  | item :: rest => transformItem o item :: transformGoList o rest
termination_by elems => (sizeOf elems, 0)

/-- The `Object.entries` loop over a mapping's values, keys and order kept. -/
def transformGoFields (o : ConversionOptions) :
    List (String × JValue) → List (String × JValue)
  | [] => []
  | (k, v) :: rest => (k, transformItem o v) :: transformGoFields o rest
termination_by fields => (sizeOf fields, 0)

end

/-- `transformEmptyValues` (src/index.ts lines 141-202): a `null` or
non-object input throws a TypeError, otherwise the recursive body runs. -/
def transformEmptyValues (input : JValue) (options : ConversionOptions := {}) :
    Except JsError JValue :=
  match input with
  | .arr _ => .ok (transformGo options input)
  | .obj _ => .ok (transformGo options input)
  | _ => .error (.typeError "Input must be an object or array")

/-! ## replaceString (src/index.ts lines 233-287) and its regular-expression
model -/

/-- Digits of the exact fractional part of a rational in `[0,1)`; the fuel
bounds the rendered precision (JS double formatting is abstracted — no claim
touches number stringification). -/
def fracDigitChars : Nat → ℚ → List Char
  | 0, _ => []
  | fuel + 1, q =>
      if q == 0 then []
      else
        Char.ofNat (48 + ((q * 10).floor.toNat % 10)) ::
          fracDigitChars fuel (q * 10 - (q * 10).floor)

/-- JS `String(q)` for a number. -/
def ratToString (q : ℚ) : String :=
  let sign := if q < 0 then "-" else ""
  let a : ℚ := |q|
  let fr := fracDigitChars 20 (a - a.floor)
  if fr.isEmpty then sign ++ toString a.floor.toNat
  else sign ++ toString a.floor.toNat ++ "." ++ String.mk fr

mutual

/-- JS `String(value)`: strings verbatim, numbers in decimal, booleans,
`null`/`undefined` by name, arrays as the comma-join of their members
(`null`/`undefined` members render empty), plain mappings as
`"[object Object]"`. -/
def jsToString (v : JValue) : String :=
  match v with
  | .str s => s
  | .num q => ratToString q
  | .bool true => "true"
  | .bool false => "false"
  | .null => "null"
  | .undef => "undefined"
  | .arr elems => jsToStringList elems
  | .obj _ => "[object Object]"

/-- `Array.prototype.toString`: comma-join with empty renderings for
`null`/`undefined` members. -/
def jsToStringList (elems : List JValue) : String :=
  match elems with
  | [] => ""
  | [e] =>
      match e with
      | .null => ""
      | .undef => ""
      | e => jsToString e
  | e :: rest =>
      (match e with
       | .null => ""
       | .undef => ""
       | e => jsToString e) ++ "," ++ jsToStringList rest

end

/-- The character class `[.*+?^${}()|[\]\\]` of `escapeRegexStr`. -/
def isRegexMeta (c : Char) : Bool :=
  c == '.' || c == '*' || c == '+' || c == '?' || c == '^' || c == '$' ||
    c == '\x7b' || c == '\x7d' || c == '(' || c == ')' || c == '|' ||
    c == '[' || c == ']' || c == '\\'

/-- `escapeRegexStr` (src/index.ts lines 265-267) on the character level:
with escaping on, `.replace(/[.*+?^${}()|[\]\\]/g, "\\$&")` puts a backslash
before every metacharacter; with escaping off the key is used verbatim. -/
def escapeRegexChars (escape : Bool) (cs : List Char) : List Char :=
  if escape then cs.flatMap (fun c => if isRegexMeta c then ['\\', c] else [c])
  else cs

/-- `escapeRegexStr` as a string transformer. -/
def escapeRegexStr (escape : Bool) (s : String) : String :=
  String.mk (escapeRegexChars escape s.toList)

/-- `.join("|")` over the escaped keys, on the character level. -/
def joinBarChars : List (List Char) → List Char
  | [] => []
  | [p] => p
  | p :: rest => p ++ '|' :: joinBarChars rest

/-- Atom of the modelled pattern fragment. -/
inductive RAtom where
  | lit (c : Char)
  | dot

/-- Quantifier attached to an atom. -/
inductive RQuant where
  | one
  | plus
  | star
  | opt

/-- Reads `+`, `*`, `?` as quantifiers. -/
def quantOf (c : Char) : Option RQuant :=
  if c == '+' then some .plus
  else if c == '*' then some .star
  else if c == '?' then some .opt
  else none

/-- Reads one optional quantifier after an atom: a leading `+`, `*` or `?`
is consumed, anything else leaves the characters untouched. -/
def peelQuant : List Char → RQuant × List Char
  | [] => (.one, [])
  | q :: r3 =>
      match quantOf q with
      | some qq => (qq, r3)
      | none => (.one, q :: r3)

/-- Fuelled body of `compileBranch` — compile one alternation branch of the
pattern string.  The modelled grammar is the fragment `new RegExp` receives
from escaped keys — escaped metacharacters, ordinary literal characters,
`.`, and the quantifiers `+ * ?` — plus enough structure to detect the
standard syntax errors (a quantifier with nothing to repeat, a trailing
backslash).  Groups, classes, anchors, brace quantifiers and class escapes
are outside the modelled fragment and rejected; escaped keys never produce
them and no claim touches them.  The fuel only bounds recursion: every step
consumes at least one character, so `cs.length + 1` is always enough. -/
def compileBranchGo : Nat → List Char → Option (List (RAtom × RQuant))
  | 0, _ => none
  | _ + 1, [] => some []
  | fuel + 1, c :: rest =>
      if c == '\\' then
        match rest with
        | [] => none
        | e :: rest2 =>
            (compileBranchGo fuel (peelQuant rest2).2).map
              (fun b => (RAtom.lit e, (peelQuant rest2).1) :: b)
      else if c == '.' then
        (compileBranchGo fuel (peelQuant rest).2).map
          (fun b => (RAtom.dot, (peelQuant rest).1) :: b)
      else if isRegexMeta c then none
      else
        (compileBranchGo fuel (peelQuant rest).2).map
          (fun b => (RAtom.lit c, (peelQuant rest).1) :: b)

/-- Compile one alternation branch (see `compileBranchGo`). -/
def compileBranch (cs : List Char) : Option (List (RAtom × RQuant)) :=
  compileBranchGo (cs.length + 1) cs

/-- Split the joined pattern at every top-level (unescaped) `|`; an escape
consumes the following character, so an escaped bar stays inside its branch
(a trailing lone backslash is kept and later rejected by the compiler, as
`new RegExp` rejects it). -/
def splitBranches : List Char → List (List Char)
  | [] => [[]]
  | c :: rest =>
      if c == '\\' then
        match rest with
        | [] =>
            match splitBranches [] with
            | [] => [[c]]
            | seg :: segs => (c :: seg) :: segs
        | e :: rest2 =>
            match splitBranches rest2 with
            | [] => [['\\', e]]
            | seg :: segs => ('\\' :: e :: seg) :: segs
      else if c == '|' then [] :: splitBranches rest
      else
        match splitBranches rest with
        | [] => [[c]]
        | seg :: segs => (c :: seg) :: segs

/-- Compile every branch; `none` when any branch is invalid (the model of a
`SyntaxError` from `new RegExp`). -/
def compileAll : List (List Char) → Option (List (List (RAtom × RQuant)))
  | [] => some []
  | b :: bs =>
      match compileBranch b, compileAll bs with
      | some cb, some rest => some (cb :: rest)
      | _, _ => none

/-- One atom against one character; case-insensitive matching (`i` flag)
folds through `toLowerCase` on the ASCII range; `.` matches everything but
the line terminators. -/
def atomMatch (ic : Bool) (a : RAtom) (c : Char) : Bool :=
  match a with
  | .lit l => if ic then jsToLowerChar l == jsToLowerChar c else l == c
  | .dot => !(c == '\n' || c == '\r' || c.toNat == 0x2028 || c.toNat == 0x2029)

/-- Longest run of characters the atom matches at the front. -/
def maxRun (ic : Bool) (a : RAtom) : List Char → Nat
  | [] => 0
  | c :: rest => if atomMatch ic a c then maxRun ic a rest + 1 else 0

mutual

/-- Greedy backtracking match of a branch at the front of `cs`, returning the
number of characters consumed by the first (leftmost-greedy, as in JS)
successful alternative. -/
def matchSeq (ic : Bool) : List (RAtom × RQuant) → List Char → Option Nat
  | [], _ => some 0
  | (a, .one) :: rest, [] =>
      match a, rest with
      | _, _ => none
  | (a, .one) :: rest, c :: cs =>
      if atomMatch ic a c then (matchSeq ic rest cs).map (fun n => n + 1) else none
  | (_, .opt) :: rest, [] => matchSeq ic rest []
  | (a, .opt) :: rest, c :: cs =>
      if atomMatch ic a c then
        match matchSeq ic rest cs with
        | some n => some (n + 1)
        | none => matchSeq ic rest (c :: cs)
      else matchSeq ic rest (c :: cs)
  | (a, .star) :: rest, cs => starMatch ic a rest cs (maxRun ic a cs)
  | (a, .plus) :: rest, [] =>
      match a, rest with
      | _, _ => none
  | (a, .plus) :: rest, c :: cs =>
      if atomMatch ic a c then
        (starMatch ic a rest cs (maxRun ic a cs)).map (fun n => n + 1)
      else none
termination_by atoms _ => (atoms.length, 1, 0)

/-- `a*` continuation: try `k` repetitions first, then back off. -/
def starMatch (ic : Bool) (a : RAtom) (rest : List (RAtom × RQuant))
    (cs : List Char) : Nat → Option Nat
  | 0 => matchSeq ic rest cs
  | k + 1 =>
      match matchSeq ic rest (cs.drop (k + 1)) with
      | some n => some (k + 1 + n)
      | none => starMatch ic a rest cs k
termination_by k => (rest.length + 1, 0, k)

end

/-- Alternation: the first branch (in key order) that matches wins, exactly
the JS `|` semantics. -/
def altMatch (ic : Bool) (branches : List (List (RAtom × RQuant)))
    (cs : List Char) : Option Nat :=
  match branches with
  | [] => none
  | b :: bs =>
      match matchSeq ic b cs with
      | some n => some n
      | none => altMatch ic bs cs

/-- The replacement callback (src/index.ts lines 277-286): with `ignoreCase`
the key is recovered by case-insensitive comparison against the keys in map
order; otherwise the matched text itself is the key.  A falsy key (failed
find, or the empty string) leaves the match unchanged; a truthy key missing
from the map (possible only with `escapeRegex: false`) makes the callback
return JS `undefined`, which `replace` stringifies to `"undefined"`. -/
def replCallback (ic : Bool) (reps : List (List Char × List Char))
    (matched : List Char) : List Char :=
  let key : Option (List Char) :=
    if ic then
      (reps.map (fun kv => kv.1)).find?
        (fun k => k.map jsToLowerChar == matched.map jsToLowerChar)
    else some matched
  match key with
  | none => matched
  | some k =>
      if k.isEmpty then matched
      else
        match reps.find? (fun kv => kv.1 == k) with
        | some kv => kv.2
        | none => ['u', 'n', 'd', 'e', 'f', 'i', 'n', 'e', 'd']

/-- `text.replace(regex, cb)` with the `g` flag: scan left to right, replace
every match, and advance one character after an empty match (as JS does via
`lastIndex`).  The fuel only bounds recursion; every step strictly shortens
the list, so `cs.length + 1` is always enough. -/
def replaceScan (ic : Bool) (branches : List (List (RAtom × RQuant)))
    (reps : List (List Char × List Char)) : Nat → List Char → List Char
  | 0, cs => cs
  | fuel + 1, cs =>
      match altMatch ic branches cs with
      | none =>
          match cs with
          | [] => []
          | c :: rest => c :: replaceScan ic branches reps fuel rest
      | some 0 =>
          replCallback ic reps [] ++
            (match cs with
             | [] => []
             | c :: rest => c :: replaceScan ic branches reps fuel rest)
      | some (n + 1) =>
          replCallback ic reps (cs.take (n + 1)) ++
            replaceScan ic branches reps fuel (cs.drop (n + 1))

/-- `text.replace(regex, cb)` without the `g` flag: only the first match is
replaced, the rest is copied verbatim. -/
def replaceFirstMatch (ic : Bool) (branches : List (List (RAtom × RQuant)))
    (reps : List (List Char × List Char)) : Nat → List Char → List Char
  | 0, cs => cs
  | fuel + 1, cs =>
      match altMatch ic branches cs with
      | none =>
          match cs with
          | [] => []
          | c :: rest => c :: replaceFirstMatch ic branches reps fuel rest
      | some 0 => replCallback ic reps [] ++ cs
      | some (n + 1) =>
          replCallback ic reps (cs.take (n + 1)) ++ cs.drop (n + 1)

/-- `Object.entries` as used on the replacements argument: a mapping's
fields in insertion order; an array's members under their decimal index
keys; nothing otherwise (unreachable after validation). -/
def jsEntries (v : JValue) : List (String × JValue) :=
  match v with
  | .obj fields => fields
  | .arr elems => elems.enum.map (fun p => (toString p.1, p.2))
  | _ => []

/-- Options of `replaceString` with the source's defaults. -/
structure ReplaceOptions where
  ignoreCase : Bool := true
  replaceAll : Bool := true
  escapeRegex : Bool := true

/-- `replaceString` (src/index.ts lines 233-287): TypeError on a non-string
text; TypeError when replacements is falsy or not of object type (note JS
arrays are of object type and pass); empty text or an empty key set returns
the text before any pattern is built; otherwise the keys — escaped per
`escapeRegex` — are joined into one alternation pattern, compiled (an
invalid pattern gives the `SyntaxError` of `new RegExp`), and the text is
rewritten through the replacement callback, everywhere or only at the first
match per `replaceAll`. -/
def replaceString (text : JValue) (replacements : JValue)
    (options : ReplaceOptions := {}) : Except JsError String :=
  match text with
  | .str s =>
      match replacements with
      | .obj _ | .arr _ =>
          let entries := jsEntries replacements
          if s == "" || entries.isEmpty then .ok s
          else
            let reps := entries.map (fun kv => (kv.1.toList, (jsToString kv.2).toList))
            let pattern :=
              joinBarChars
                (reps.map (fun kv => escapeRegexChars options.escapeRegex kv.1))
            match compileAll (splitBranches pattern) with
            | none => .error (.syntaxError "Invalid regular expression")
            | some branches =>
                .ok (String.mk
                  (if options.replaceAll then
                    replaceScan options.ignoreCase branches reps
                      (s.toList.length + 1) s.toList
                  else
                    replaceFirstMatch options.ignoreCase branches reps
                      (s.toList.length + 1) s.toList))
      | _ => .error (.typeError "Replacements must be an object")
  | _ => .error (.typeError "Input text must be a string")

/-! ## Character classes used by the claims -/

/-- The character class `[a-z0-9_-]` of the spec's slug guarantee. -/
def isSlugChar (c : Char) : Bool :=
  (97 ≤ c.toNat && c.toNat ≤ 122) || (48 ≤ c.toNat && c.toNat ≤ 57) ||
    c.toNat == 95 || c.toNat == 45

/-- The value (as a JS number) of the longest numeric prefix of a character
list in integer mode, per the claim's wording: an optional leading minus
sign followed by the longest run of decimal digits. -/
def numericLeadInt (cs : List Char) : ℚ :=
  match cs with
  | c :: rest =>
      if c == '-' then -((digitsToNat (rest.takeWhile Char.isDigit) : ℚ))
      else (digitsToNat ((c :: rest).takeWhile Char.isDigit) : ℚ)
  | [] => 0

/-- A match text starts with a digit, or with a minus sign and a digit. -/
def goodLead (m : List Char) : Prop :=
  (∃ d t, m = d :: t ∧ d.isDigit = true) ∨
    (∃ d t, m = '-' :: d :: t ∧ d.isDigit = true)

/-- A value of JS object type that passes the transformer's validation
(`typeof v === "object" && v !== null`): a mapping or a sequence. -/
def isMappingOrSequence : JValue → Bool
  | .arr _ => true
  | .obj _ => true
  | _ => false

/-- The compiled branch of a literal key: each character one `lit` atom. -/
def litBranch (k : List Char) : List (RAtom × RQuant) :=
  k.map (fun c => (RAtom.lit c, RQuant.one))

/-- The key occurs literally at the front of `cs` (case-folded when `ic`),
per the claim's wording for escaped keys. -/
def litMatchesAt (ic : Bool) (k cs : List Char) : Bool :=
  decide (k.length ≤ cs.length) &&
    (k.map (fun c => if ic then jsToLowerChar c else c) ==
      (cs.take k.length).map (fun c => if ic then jsToLowerChar c else c))

/-! ## Supporting lemmas -/

theorem takeWhileLengthLe (p : Char → Bool) (l : List Char) :
    (l.takeWhile p).length ≤ l.length := by
  induction l with
  | nil => simp
  | cons a t ih => by_cases h : p a <;> simp [List.takeWhile, h] <;> omega

theorem numCore_length_lt {dec : Bool} {cs m rest : List Char}
    (h : numCore dec cs = some (m, rest)) : rest.length < cs.length := by
  unfold numCore at h
  have hle := takeWhileLengthLe Char.isDigit cs
  dsimp only at h
  by_cases hempty : (cs.takeWhile Char.isDigit).isEmpty
  · rw [if_pos hempty] at h
    exact absurd h (by simp)
  · rw [if_neg hempty] at h
    have hdpos : 0 < (cs.takeWhile Char.isDigit).length := by
      cases hq : cs.takeWhile Char.isDigit with
      | nil => rw [hq] at hempty; simp at hempty
      | cons a l => simp
    split at h
    · -- dec = true: the optional fraction may extend the match
      split at h
      · rename_i r2 hr2
        have hr2len : r2.length + 1 = cs.length - (cs.takeWhile Char.isDigit).length := by
          have h2 := congrArg List.length hr2
          simp only [List.length_drop, List.length_cons] at h2
          omega
        have hfle := takeWhileLengthLe Char.isDigit r2
        split at h
        · rcases Option.some.inj h with h3
          have h4 : rest = cs.drop (cs.takeWhile Char.isDigit).length :=
            congrArg Prod.snd h3 |>.symm
          rw [h4]
          simp only [List.length_drop]
          omega
        · rcases Option.some.inj h with h3
          have h4 : rest = r2.drop (r2.takeWhile Char.isDigit).length :=
            congrArg Prod.snd h3 |>.symm
          rw [h4]
          simp only [List.length_drop]
          omega
      · rcases Option.some.inj h with h3
        have h4 : rest = cs.drop (cs.takeWhile Char.isDigit).length :=
          congrArg Prod.snd h3 |>.symm
        rw [h4]
        simp only [List.length_drop]
        omega
    · rcases Option.some.inj h with h3
      have h4 : rest = cs.drop (cs.takeWhile Char.isDigit).length :=
        congrArg Prod.snd h3 |>.symm
      rw [h4]
      simp only [List.length_drop]
      omega

theorem numMatchAt_length_lt {neg dec : Bool} {cs m rest : List Char}
    (h : numMatchAt neg dec cs = some (m, rest)) : rest.length < cs.length := by
  unfold numMatchAt at h
  split at h
  · rename_i r
    split at h
    · rcases hc : numCore dec r with _ | p
      · rw [hc] at h
        exact numCore_length_lt h
      · rcases p with ⟨m', rest'⟩
        rw [hc] at h
        rcases h with ⟨rfl, rfl⟩
        have := numCore_length_lt hc
        simpa using Nat.lt_succ_of_lt this
    · exact numCore_length_lt h
  · exact numCore_length_lt h

theorem peelQuant_length_le (l : List Char) : (peelQuant l).2.length ≤ l.length := by
  cases l with
  | nil => simp [peelQuant]
  | cons q r3 =>
      simp only [peelQuant]
      cases quantOf q <;> simp

theorem toNat_ofNat_valid (n : Nat) (h : n.isValidChar) :
    (Char.ofNat n).toNat = n := by
  simp [Char.ofNat, h]
  rfl

theorem jsToLowerChar_not_upper (c : Char) :
    ¬(65 ≤ (jsToLowerChar c).toNat ∧ (jsToLowerChar c).toNat ≤ 90) := by
  unfold jsToLowerChar
  split
  · rename_i h
    have hv : (c.toNat + 32).isValidChar := Or.inl (by omega)
    rw [toNat_ofNat_valid _ hv]
    omega
  · rename_i h
    exact h

theorem collapseSpaces_mem {c : Char} :
    ∀ (flag : Bool) (cs : List Char), c ∈ collapseSpaces flag cs →
      c = '-' ∨ (c ∈ cs ∧ c ≠ ' ') := by
  intro flag cs
  induction cs generalizing flag with
  | nil => simp [collapseSpaces]
  | cons a rest ih =>
      intro hmem
      unfold collapseSpaces at hmem
      by_cases ha : a == ' '
      · rw [if_pos ha] at hmem
        have ha2 : a = ' ' := by simpa using ha
        by_cases hflag : flag
        · rw [if_pos hflag] at hmem
          rcases ih true hmem with h | ⟨h1, h2⟩
          · exact Or.inl h
          · exact Or.inr ⟨List.mem_cons_of_mem _ h1, h2⟩
        · rw [if_neg hflag] at hmem
          rcases List.mem_cons.mp hmem with h | h
          · exact Or.inl h
          · rcases ih true h with h2 | ⟨h3, h4⟩
            · exact Or.inl h2
            · exact Or.inr ⟨List.mem_cons_of_mem _ h3, h4⟩
      · rw [if_neg ha] at hmem
        have ha2 : a ≠ ' ' := by simpa using ha
        rcases List.mem_cons.mp hmem with h | h
        · exact Or.inr ⟨by simp [h], h ▸ ha2⟩
        · rcases ih false h with h2 | ⟨h3, h4⟩
          · exact Or.inl h2
          · exact Or.inr ⟨List.mem_cons_of_mem _ h3, h4⟩

/-- C7: every character of `slugify`'s output lies in `[a-z0-9_-]` and is
not whitespace. -/
theorem slugify_output_chars (text : String) :
    (slugify text).toList.all (fun c => isSlugChar c && !isJsWhitespace c) = true := by
  rw [List.all_eq_true]
  intro c hc
  have hc2 : c ∈ collapseSpaces false (stripNonWord (jsToLower text).toList) := by
    simpa [slugify] using hc
  rcases collapseSpaces_mem _ _ hc2 with h | ⟨hmem, hne⟩
  · subst h
    decide
  · rcases List.mem_filter.mp hmem with ⟨hmem2, hcond⟩
    have hmap : c ∈ text.toList.map jsToLowerChar := by
      simpa [jsToLower] using hmem2
    rcases List.mem_map.mp hmap with ⟨c0, _, rfl⟩
    have hnu := jsToLowerChar_not_upper c0
    have hword : isWordChar (jsToLowerChar c0) = true := by
      rcases Bool.or_eq_true_iff.mp hcond with h | h
      · exact h
      · exact absurd (by simpa using h) hne
    simp only [isWordChar, Bool.or_eq_true, Bool.and_eq_true, decide_eq_true_eq,
      beq_iff_eq] at hword
    simp only [Bool.and_eq_true, isSlugChar, Bool.or_eq_true, decide_eq_true_eq,
      beq_iff_eq, Bool.not_eq_true', isJsWhitespace, Bool.or_eq_false_iff,
      beq_eq_false_iff_ne, ne_eq]
    omega

theorem jsTraverseList_eq_map (elems : List JValue) (keyLeft : List String) :
    jsTraverseList elems keyLeft = elems.map (fun e => jsTraverse e keyLeft) := by
  induction elems with
  | nil => simp [jsTraverseList]
  | cons e rest ih => rw [jsTraverseList, ih, List.map_cons]

/-- C1: when traversal reaches a sequence node, the resolver maps the
remaining path over every element independently, keeps only the truthy
results, flattens one level, and returns the not-found sentinel when nothing
remains; in particular the nested-addresses example yields `["NY", "LA"]`. -/
theorem resolveObjectPath_sequence_fanout :
    (∀ (elems : List JValue) (keyLeft : List String),
      jsTraverse (.arr elems) keyLeft =
        (if ((elems.map (fun e => jsTraverse e keyLeft)).filter
              (fun r => r.truthy)).isEmpty
         then .undef
         else .arr (flattenOne ((elems.map (fun e => jsTraverse e keyLeft)).filter
              (fun r => r.truthy))))) ∧
    resolveObjectPath
      (.obj [("user", .obj [("addresses",
        .arr [.obj [("city", .str "NY")], .obj [("city", .str "LA")]])])])
      "user.addresses.city" = .arr [.str "NY", .str "LA"] := by
  constructor
  · intro elems keyLeft
    rw [jsTraverse, jsTraverseList_eq_map]
  · simp [resolveObjectPath, jsSplitDot, splitDotChars, jsTraverse,
      jsTraverseList, jsGet, flattenOne, JValue.truthy]

/-- C6: `resolveObjectPath` is total (the model is a plain function, so no
exception can arise): absent data gives the not-found sentinel, an empty
path returns truthy data unchanged, and a path with an empty segment gives
the not-found sentinel for every data value. -/
theorem resolveObjectPath_safety :
    (∀ path, resolveObjectPath .undef path = .undef ∧
      resolveObjectPath .null path = .undef) ∧
    (∀ data : JValue, data.truthy = true → resolveObjectPath data "" = data) ∧
    (∀ (data : JValue) (path : String), path ≠ "" → "" ∈ jsSplitDot path →
      resolveObjectPath data path = .undef) := by
  refine ⟨?_, ?_, ?_⟩
  · intro path
    constructor <;> simp [resolveObjectPath, JValue.truthy]
  · intro data h
    simp [resolveObjectPath, h]
  · intro data path h1 h2
    by_cases ht : data.truthy
    · have hany : (jsSplitDot path).any (fun key => key == "") = true :=
        List.any_eq_true.mpr ⟨"", h2, by simp⟩
      simp [resolveObjectPath, ht, h1, hany]
    · have ht2 : data.truthy = false := by
        cases hdt : data.truthy
        · rfl
        · exact absurd hdt ht
      simp [resolveObjectPath, ht2]

theorem resolveObjectPath_safety_witness :
    resolveObjectPath (.obj [("a", .num 1)]) "" = .obj [("a", .num 1)] ∧
    resolveObjectPath (.obj [("a", .num 1)]) "a..b" = .undef :=
  ⟨resolveObjectPath_safety.2.1 _ rfl,
   resolveObjectPath_safety.2.2 _ "a..b" (by decide) (by decide)⟩

/-- C4: with `isEmptyFn` unset, the built-in rule holds exactly for strings
that equal `""` (after trimming when `trimStrings`) and — when
`processEmptyArrays` — for sequences with no elements; numbers, booleans,
null and non-empty mappings are never empty.  With `isEmptyFn` supplied it
alone decides for every checked value (the transformer hands the same
options, hence the same `isEmptyB`, to every recursive call). -/
theorem isEmpty_rule :
    (∀ (o : ConversionOptions) (v : JValue), o.isEmptyFn = none →
      (isEmptyB o v = true ↔
        (∃ s, v = .str s ∧ (if o.trimStrings then jsTrim s else s) = "") ∨
        (o.processEmptyArrays = true ∧ v = .arr []))) ∧
    (∀ (o : ConversionOptions) (f : JValue → Bool) (v : JValue),
      o.isEmptyFn = some f → isEmptyB o v = f v) := by
  constructor
  · intro o v hfn
    cases v with
    | str s =>
        by_cases ht : o.trimStrings <;> simp [isEmptyB, hfn, ht]
    | arr elems =>
        cases elems <;> simp [isEmptyB, hfn, List.isEmpty]
    | _ => simp [isEmptyB, hfn]
  · intro o f v hfn
    simp [isEmptyB, hfn]

theorem isEmpty_rule_witness :
    (isEmptyB {} (.str " ") = true ↔
      (∃ s, (JValue.str " ") = .str s ∧
        (if ({} : ConversionOptions).trimStrings then jsTrim s else s) = "") ∨
      (({} : ConversionOptions).processEmptyArrays = true ∧
        (JValue.str " ") = .arr [])) ∧
    isEmptyB {isEmptyFn := some (fun v => v.truthy)} (.num 0) =
      (fun v : JValue => v.truthy) (.num 0) :=
  ⟨isEmpty_rule.1 {} (.str " ") rfl,
   isEmpty_rule.2 _ (fun v => v.truthy) (.num 0) rfl⟩

/-- C3: `extractNumber` returns the default on an all-whitespace input or
when the pattern never matches; otherwise it concatenates all matches and
parses the concatenation with `parseFloat` (decimals allowed) or
`parseInt(·, 10)`, falling back to the default on NaN; and the two
worked examples. -/
theorem extractNumber_spec :
    (∀ (o : ExtractNumberOptions) (s : String), jsTrim s = "" →
      extractNumber s o = o.defaultValue) ∧
    (∀ (o : ExtractNumberOptions) (s : String),
      numMatches o.allowNegative o.allowDecimals s.toList = [] →
      extractNumber s o = o.defaultValue) ∧
    (∀ (o : ExtractNumberOptions) (s : String) (m : List Char)
        (ms : List (List Char)),
      jsTrim s ≠ "" →
      numMatches o.allowNegative o.allowDecimals s.toList = m :: ms →
      extractNumber s o =
        (match (if o.allowDecimals then parseFloatJS (String.mk ((m :: ms).flatten))
          else (parseIntJS (String.mk ((m :: ms).flatten))).map (fun i => (i : ℚ))) with
         | none => o.defaultValue
         | some q => q)) ∧
    extractNumber "Price is $123.45" {} = 12345 ∧
    extractNumber "Price is $123.45" {allowDecimals := true} = 123.45 := by
  refine ⟨?_, ?_, ?_, ?_, ?_⟩
  · intro o s h
    simp [extractNumber, h]
  · intro o s h
    simp only [String.toList] at h
    by_cases htrim : jsTrim s == "" <;> simp [extractNumber, htrim, h]
  · intro o s m ms h1 h2
    simp only [String.toList] at h2
    simp [extractNumber, h1, h2]
  · simp [extractNumber, jsTrim, isJsWhitespace, numMatches, numMatchesGo,
      numMatchAt, numCore, parseIntJS, digitsToNat]
  · simp [extractNumber, jsTrim, isJsWhitespace, numMatches, numMatchesGo,
      numMatchAt, numCore, parseFloatJS, digitsToNat]
    norm_num

theorem extractNumber_spec_witness :
    extractNumber "   " {} = 0 ∧
    extractNumber "abc" {} = 0 ∧
    extractNumber "12 34" {} = 1234 :=
  ⟨extractNumber_spec.1 {} "   " (by decide),
   extractNumber_spec.2.1 {} "abc" (by decide),
   (extractNumber_spec.2.2.1 {} "12 34" ['1', '2'] [['3', '4']]
      (by decide) (by decide)).trans (by decide)⟩

theorem digit_not_ws {c : Char} (h : c.isDigit = true) :
    isJsWhitespace c = false := by
  have hb : 48 ≤ c.toNat ∧ c.toNat ≤ 57 := by simpa [Char.isDigit] using h
  simp only [isJsWhitespace, Bool.or_eq_false_iff, beq_eq_false_iff_ne, ne_eq]
  omega

theorem takeWhile_cons_shape {p : Char → Bool} {l : List Char} {a : Char}
    {t : List Char} (h : l.takeWhile p = a :: t) :
    p a = true ∧ ∃ l2, l = a :: l2 := by
  cases l with
  | nil => simp [List.takeWhile] at h
  | cons b l2 =>
      by_cases hb : p b
      · rw [List.takeWhile_cons_of_pos hb] at h
        rcases List.cons.inj h with ⟨rfl, _⟩
        exact ⟨hb, l2, rfl⟩
      · rw [List.takeWhile_cons_of_neg hb] at h
        exact absurd h (by simp)

theorem numCore_shape {dec : Bool} {cs m rest : List Char}
    (h : numCore dec cs = some (m, rest)) :
    ∃ d t, m = d :: t ∧ d.isDigit = true := by
  unfold numCore at h
  dsimp only at h
  by_cases hempty : (cs.takeWhile Char.isDigit).isEmpty
  · rw [if_pos hempty] at h
    exact absurd h (by simp)
  · rw [if_neg hempty] at h
    rcases hds : cs.takeWhile Char.isDigit with _ | ⟨d, t⟩
    · rw [hds] at hempty
      simp at hempty
    have hd := (takeWhile_cons_shape hds).1
    rw [hds] at h
    split at h
    · split at h
      · rename_i r2 hr2
        split at h
        · injection h with h3
          injection h3 with h4 h5
          exact ⟨d, t, h4.symm, hd⟩
        · injection h with h3
          injection h3 with h4 h5
          exact ⟨d, t ++ '.' :: List.takeWhile Char.isDigit r2,
            by rw [← h4]; simp, hd⟩
      · injection h with h3
        injection h3 with h4 h5
        exact ⟨d, t, h4.symm, hd⟩
    · injection h with h3
      injection h3 with h4 h5
      exact ⟨d, t, h4.symm, hd⟩

theorem numMatchAt_shape {neg dec : Bool} {cs m rest : List Char}
    (h : numMatchAt neg dec cs = some (m, rest)) : goodLead m := by
  unfold numMatchAt at h
  split at h
  · split at h
    · rcases hc : numCore dec _ with _ | ⟨m2, rest2⟩ <;> rw [hc] at h
      · exact Or.inl (numCore_shape h)
      · injection h with h3
        injection h3 with h4 h5
        rcases numCore_shape hc with ⟨d, t, rfl, hd⟩
        exact Or.inr ⟨d, t, h4.symm, hd⟩
    · exact Or.inl (numCore_shape h)
  · exact Or.inl (numCore_shape h)

theorem numMatchesGo_head_shape {neg dec : Bool} :
    ∀ (fuel : Nat) (cs m : List Char) (ms : List (List Char)),
      numMatchesGo neg dec fuel cs = m :: ms → goodLead m := by
  intro fuel
  induction fuel with
  | zero =>
      intro cs m ms h
      simp [numMatchesGo] at h
  | succ n ih =>
      intro cs m ms h
      rcases ha : numMatchAt neg dec cs with _ | ⟨m2, rest⟩
      · cases cs with
        | nil => simp [numMatchesGo, ha] at h
        | cons c tail =>
            simp only [numMatchesGo, ha] at h
            exact ih tail m ms h
      · simp only [numMatchesGo, ha] at h
        rcases List.cons.inj h with ⟨rfl, _⟩
        exact numMatchAt_shape ha

theorem goodLead_append {m : List Char} (h : goodLead m) (t2 : List Char) :
    goodLead (m ++ t2) := by
  rcases h with ⟨d, t, rfl, hd⟩ | ⟨d, t, rfl, hd⟩
  · exact Or.inl ⟨d, t ++ t2, by simp, hd⟩
  · exact Or.inr ⟨d, t ++ t2, by simp, hd⟩

theorem parseIntJS_goodLead {flat : List Char} (h : goodLead flat) :
    (parseIntJS (String.mk flat)).map (fun i => (i : ℚ)) =
      some (numericLeadInt flat) := by
  rcases h with ⟨d, t, rfl, hd⟩ | ⟨d, t, rfl, hd⟩
  · have hdw : isJsWhitespace d = false := digit_not_ws hd
    have hd48 : 48 ≤ d.toNat ∧ d.toNat ≤ 57 := by simpa [Char.isDigit] using hd
    have hne : (d == '-') = false := by
      simp only [beq_eq_false_iff_ne, ne_eq]
      intro hcon
      rw [hcon] at hd48
      exact absurd hd48 (by decide)
    have hne2 : (d == '+') = false := by
      simp only [beq_eq_false_iff_ne, ne_eq]
      intro hcon
      rw [hcon] at hd48
      exact absurd hd48 (by decide)
    unfold parseIntJS
    dsimp only
    rw [show (String.mk (d :: t)).toList = d :: t from rfl]
    rw [List.dropWhile_cons_of_neg (by simp [hdw])]
    simp only [hne, hne2, Bool.false_eq_true, if_false]
    rw [List.takeWhile_cons_of_pos hd]
    simp only [List.isEmpty_cons, Bool.false_eq_true, if_false]
    unfold numericLeadInt
    simp only [hne, Bool.false_eq_true, if_false]
    rw [List.takeWhile_cons_of_pos hd]
    simp
  · have hd48 : 48 ≤ d.toNat ∧ d.toNat ≤ 57 := by simpa [Char.isDigit] using hd
    unfold parseIntJS
    dsimp only
    rw [show (String.mk ('-' :: d :: t)).toList = '-' :: d :: t from rfl]
    rw [List.dropWhile_cons_of_neg (by decide)]
    simp only [show (('-' : Char) == '-') = true from by decide, if_true]
    rw [List.takeWhile_cons_of_pos hd]
    simp only [List.isEmpty_cons, Bool.false_eq_true, if_false]
    unfold numericLeadInt
    simp only [show (('-' : Char) == '-') = true from by decide, if_true]
    rw [List.takeWhile_cons_of_pos hd]
    simp

/-- C10: when the pattern matches, the result is the parse of the
concatenation of all matches, which (in integer mode) is the value of the
concatenation's longest numeric prefix — junk after that prefix is ignored
rather than falling back to the default; and the worked examples for an
interior minus sign and a second decimal point. -/
theorem extractNumber_longest_lead :
    (∀ (o : ExtractNumberOptions) (s : String) (m : List Char)
        (ms : List (List Char)),
      o.allowDecimals = false →
      jsTrim s ≠ "" →
      numMatches o.allowNegative o.allowDecimals s.toList = m :: ms →
      extractNumber s o = numericLeadInt ((m :: ms).flatten)) ∧
    extractNumber "3 -4" {allowNegative := true} = 3 ∧
    extractNumber "1.2 3.4" {allowDecimals := true} = 1.23 := by
  refine ⟨?_, ?_, ?_⟩
  · intro o s m ms hdec htrim hm
    have hlead : goodLead ((m :: ms).flatten) := by
      have hshape := numMatchesGo_head_shape _ _ _ _ hm
      simpa using goodLead_append hshape ms.flatten
    simp only [String.toList] at hm
    rw [hdec] at hm
    simp only [extractNumber, htrim, hm, hdec]
    have hparse := parseIntJS_goodLead hlead
    simp only [List.flatten_cons] at hparse ⊢
    rcases hp : parseIntJS (String.mk (m ++ ms.flatten)) with _ | i
    · rw [hp] at hparse
      simp at hparse
    · rw [hp] at hparse
      simp at hparse
      simp [htrim, hm, hp, hparse]
  · simp [extractNumber, jsTrim, isJsWhitespace, numMatches, numMatchesGo,
      numMatchAt, numCore, parseIntJS, digitsToNat]
  · simp [extractNumber, jsTrim, isJsWhitespace, numMatches, numMatchesGo,
      numMatchAt, numCore, parseFloatJS, digitsToNat]
    norm_num

theorem extractNumber_longest_lead_witness :
    extractNumber "3 -4" {allowNegative := true} =
      numericLeadInt ((['3'] :: [['-', '4']]).flatten) :=
  extractNumber_longest_lead.1 {allowNegative := true} "3 -4" ['3'] [['-', '4']]
    rfl (by decide) (by decide)

/-- C2 (counterexample): with `processEmptyArrays`, the empty sequence is
replaced by `null` at top level, and re-running the transformer on that
output throws a TypeError instead of being a no-op. -/
theorem transformEmptyValues_not_idempotent :
    ¬((transformEmptyValues (.arr []) {processEmptyArrays := true} >>= fun y =>
        transformEmptyValues y {processEmptyArrays := true}) =
      transformEmptyValues (.arr []) {processEmptyArrays := true}) := by
  intro h
  simp [transformEmptyValues, transformGo, isEmptyB, Bind.bind, Except.bind] at h

theorem transformGoList_eq_map (o : ConversionOptions) :
    ∀ l : List JValue, transformGoList o l = l.map (transformItem o) := by
  intro l
  induction l with
  | nil => simp [transformGoList]
  | cons e rest ih => rw [transformGoList, ih, List.map_cons]

theorem transformGoFields_eq_map (o : ConversionOptions) :
    ∀ l : List (String × JValue),
      transformGoFields o l = l.map (fun kv => (kv.1, transformItem o kv.2)) := by
  intro l
  induction l with
  | nil => simp [transformGoFields]
  | cons kv rest ih =>
      rcases kv with ⟨k, v⟩
      rw [transformGoFields, ih, List.map_cons]

theorem transformItem_replaceWith_fixed (o : ConversionOptions)
    (hrw : isMappingOrSequence o.replaceWith = false) :
    transformItem o o.replaceWith = o.replaceWith := by
  rcases hrv : o.replaceWith with _ | _ | b | q | s | elems | fields
  · simp [transformItem, hrv, ite_self]
  · simp [transformItem, hrv, ite_self]
  · simp [transformItem, hrv, ite_self]
  · simp [transformItem, hrv, ite_self]
  · simp [transformItem, hrv, ite_self]
  · rw [hrv] at hrw
    simp [isMappingOrSequence] at hrw
  · rw [hrv] at hrw
    simp [isMappingOrSequence] at hrw

theorem transformItem_idem (o : ConversionOptions) (hfn : o.isEmptyFn = none)
    (hrw : isMappingOrSequence o.replaceWith = false) :
    ∀ v, transformItem o (transformItem o v) = transformItem o v := by
  have hmain : ∀ (n : Nat) (v : JValue), sizeOf v ≤ n →
      transformItem o (transformItem o v) = transformItem o v := by
    intro n
    induction n with
    | zero =>
        intro v hv
        cases v <;> simp at hv
    | succ n ih =>
        intro v hv
        cases v with
        | null => simp [transformItem, isEmptyB, hfn]
        | undef => simp [transformItem, isEmptyB, hfn]
        | bool b => simp [transformItem, isEmptyB, hfn]
        | num q => simp [transformItem, isEmptyB, hfn]
        | str s =>
            by_cases he : isEmptyB o (.str s) = true
            · have h1 : transformItem o (.str s) = o.replaceWith := by
                simp [transformItem, he]
              rw [h1, transformItem_replaceWith_fixed o hrw]
            · have h1 : transformItem o (.str s) = .str s := by
                simp [transformItem, he]
              rw [h1, h1]
        | arr elems =>
            by_cases he : isEmptyB o (.arr elems) = true
            · have h1 : transformItem o (.arr elems) = o.replaceWith := by
                simp [transformItem, transformGo, he]
              rw [h1, transformItem_replaceWith_fixed o hrw]
            · have h1 : transformItem o (.arr elems) =
                  .arr (elems.map (transformItem o)) := by
                simp [transformItem, transformGo, he, transformGoList_eq_map]
              have he2 : ¬(isEmptyB o (.arr (elems.map (transformItem o))) = true) := by
                simp only [isEmptyB, hfn] at he ⊢
                simpa using he
              have h2 : transformItem o (.arr (elems.map (transformItem o))) =
                  .arr ((elems.map (transformItem o)).map (transformItem o)) := by
                simp [transformItem, transformGo, he2, transformGoList_eq_map]
              rw [h1, h2, List.map_map]
              have h3 : ∀ e ∈ elems,
                  (transformItem o ∘ transformItem o) e = transformItem o e := by
                intro e hmem
                have hs : sizeOf e ≤ n := by
                  have := List.sizeOf_lt_of_mem hmem
                  have harr : sizeOf (JValue.arr elems) = 1 + sizeOf elems := by
                    simp
                  omega
                exact ih e hs
              rw [List.map_congr_left h3]
        | obj fields =>
            have he : ¬(isEmptyB o (.obj fields) = true) := by
              simp [isEmptyB, hfn]
            have h1 : transformItem o (.obj fields) =
                .obj (fields.map (fun kv => (kv.1, transformItem o kv.2))) := by
              simp [transformItem, transformGo, he, transformGoFields_eq_map]
            have he2 : ¬(isEmptyB o
                (.obj (fields.map (fun kv => (kv.1, transformItem o kv.2)))) = true) := by
              simp [isEmptyB, hfn]
            have h2 : transformItem o
                  (.obj (fields.map (fun kv => (kv.1, transformItem o kv.2)))) =
                .obj ((fields.map (fun kv => (kv.1, transformItem o kv.2))).map
                  (fun kv => (kv.1, transformItem o kv.2))) := by
              simp [transformItem, transformGo, he2, transformGoFields_eq_map]
            rw [h1, h2, List.map_map]
            have h3 : ∀ kv ∈ fields,
                ((fun kv : String × JValue => (kv.1, transformItem o kv.2)) ∘
                  (fun kv : String × JValue => (kv.1, transformItem o kv.2))) kv =
                (fun kv : String × JValue => (kv.1, transformItem o kv.2)) kv := by
              intro kv hmem
              have hs : sizeOf kv.2 ≤ n := by
                have := List.sizeOf_lt_of_mem hmem
                have hobj : sizeOf (JValue.obj fields) = 1 + sizeOf fields := by
                  simp
                rcases kv with ⟨k, v2⟩
                simp at this ⊢
                omega
              simp only [Function.comp_apply]
              rw [ih kv.2 hs]
            rw [List.map_congr_left h3]
  exact fun v => hmain (sizeOf v) v le_rfl

/-- C2 (amended): with the built-in emptiness rule (`isEmptyFn` unset), a
replacement value that is not itself a mapping or sequence, and an input that
is not empty at top level, re-running `transformEmptyValues` on its own
output is a no-op. -/
theorem transformEmptyValues_idempotent_amended
    (o : ConversionOptions) (x : JValue)
    (hfn : o.isEmptyFn = none)
    (hrw : isMappingOrSequence o.replaceWith = false)
    (hx : isMappingOrSequence x = true)
    (hne : isEmptyB o x = false) :
    (transformEmptyValues x o >>= fun y => transformEmptyValues y o) =
      transformEmptyValues x o := by
  cases x with
  | arr elems =>
      have h1 : transformGo o (.arr elems) = .arr (elems.map (transformItem o)) := by
        simp [transformGo, hne, transformGoList_eq_map]
      have he2 : isEmptyB o (.arr (elems.map (transformItem o))) = false := by
        simp only [isEmptyB, hfn] at hne ⊢
        simpa using hne
      have h2 : transformGo o (.arr (elems.map (transformItem o))) =
          .arr (elems.map (transformItem o)) := by
        rw [transformGo]
        rw [he2]
        simp only [Bool.false_eq_true, if_false]
        rw [transformGoList_eq_map, List.map_map,
          List.map_congr_left (fun e _ => by
            simp only [Function.comp_apply]
            rw [transformItem_idem o hfn hrw e])]
      simp only [transformEmptyValues, h1, Bind.bind, Except.bind, h2]
  | obj fields =>
      have h1 : transformGo o (.obj fields) =
          .obj (fields.map (fun kv => (kv.1, transformItem o kv.2))) := by
        simp [transformGo, hne, transformGoFields_eq_map]
      have he2 : isEmptyB o
          (.obj (fields.map (fun kv => (kv.1, transformItem o kv.2)))) = false := by
        simp [isEmptyB, hfn]
      have h2 : transformGo o
            (.obj (fields.map (fun kv => (kv.1, transformItem o kv.2)))) =
          .obj (fields.map (fun kv => (kv.1, transformItem o kv.2))) := by
        rw [transformGo]
        rw [he2]
        simp only [Bool.false_eq_true, if_false]
        rw [transformGoFields_eq_map, List.map_map,
          List.map_congr_left (fun kv _ => by
            simp only [Function.comp_apply]
            rw [transformItem_idem o hfn hrw kv.2])]
      simp only [transformEmptyValues, h1, Bind.bind, Except.bind, h2]
  | null => simp [isMappingOrSequence] at hx
  | undef => simp [isMappingOrSequence] at hx
  | bool b => simp [isMappingOrSequence] at hx
  | num q => simp [isMappingOrSequence] at hx
  | str s => simp [isMappingOrSequence] at hx

theorem transformEmptyValues_idempotent_amended_witness :
    (transformEmptyValues (.obj [("name", .str ""), ("age", .num 25)]) {} >>=
      fun y => transformEmptyValues y {}) =
    transformEmptyValues (.obj [("name", .str ""), ("age", .num 25)]) {} :=
  transformEmptyValues_idempotent_amended {} _ rfl rfl rfl (by decide)

theorem peelQuant_escaped (rest : List Char) :
    peelQuant (escapeRegexChars true rest) = (.one, escapeRegexChars true rest) := by
  cases rest with
  | nil => simp [escapeRegexChars, peelQuant]
  | cons c2 r =>
      by_cases hm : isRegexMeta c2
      · simp [escapeRegexChars, hm, peelQuant, quantOf]
      · have h1 : (c2 == '+') = false := by
          simp only [beq_eq_false_iff_ne, ne_eq]
          intro hcon
          exact hm (by simp [isRegexMeta, hcon])
        have h2 : (c2 == '*') = false := by
          simp only [beq_eq_false_iff_ne, ne_eq]
          intro hcon
          exact hm (by simp [isRegexMeta, hcon])
        have h3 : (c2 == '?') = false := by
          simp only [beq_eq_false_iff_ne, ne_eq]
          intro hcon
          exact hm (by simp [isRegexMeta, hcon])
        simp [escapeRegexChars, hm, peelQuant, quantOf, h1, h2, h3]

theorem escapeRegexChars_cons (c : Char) (k : List Char) :
    escapeRegexChars true (c :: k) =
      (if isRegexMeta c then ['\\', c] else [c]) ++ escapeRegexChars true k := by
  by_cases hm : isRegexMeta c <;> simp [escapeRegexChars, hm]

theorem compileBranchGo_escaped :
    ∀ (k : List Char) (fuel : Nat),
      (escapeRegexChars true k).length < fuel →
      compileBranchGo fuel (escapeRegexChars true k) = some (litBranch k) := by
  intro k
  induction k with
  | nil =>
      intro fuel hf
      cases fuel with
      | zero => simp [escapeRegexChars] at hf
      | succ f => simp [escapeRegexChars, compileBranchGo, litBranch]
  | cons c rest ih =>
      intro fuel hf
      rw [escapeRegexChars_cons] at hf ⊢
      by_cases hm : isRegexMeta c
      · rw [if_pos hm] at hf ⊢
        cases fuel with
        | zero => simp at hf
        | succ f =>
            have hlt : (escapeRegexChars true rest).length < f := by
              simp at hf
              omega
            rw [show (['\\', c] ++ escapeRegexChars true rest) =
              '\\' :: c :: escapeRegexChars true rest from by simp]
            simp only [compileBranchGo]
            rw [if_pos (by simp)]
            rw [peelQuant_escaped, ih f hlt]
            simp [litBranch]
      · rw [if_neg hm] at hf ⊢
        cases fuel with
        | zero => simp at hf
        | succ f =>
            have hlt : (escapeRegexChars true rest).length < f := by
              simp at hf
              omega
            have hne1 : (c == '\\') = false := by
              simp only [beq_eq_false_iff_ne, ne_eq]
              intro hcon
              exact hm (by simp [isRegexMeta, hcon])
            have hne2 : (c == '.') = false := by
              simp only [beq_eq_false_iff_ne, ne_eq]
              intro hcon
              exact hm (by simp [isRegexMeta, hcon])
            rw [show ([c] ++ escapeRegexChars true rest) =
              c :: escapeRegexChars true rest from by simp]
            simp only [compileBranchGo]
            rw [if_neg (by simp [hne1]), if_neg (by simp [hne2]),
              if_neg (by simp [hm])]
            rw [peelQuant_escaped, ih f hlt]
            simp [litBranch]

theorem compileBranch_escaped (k : List Char) :
    compileBranch (escapeRegexChars true k) = some (litBranch k) :=
  compileBranchGo_escaped k _ (Nat.lt_succ_self _)

theorem splitBranches_bar (X : List Char) (s : List Char) (ss : List (List Char))
    (hs : splitBranches X = s :: ss) :
    splitBranches ('|' :: X) = [] :: s :: ss := by
  rw [splitBranches.eq_def]
  dsimp only
  rw [if_neg (by decide), if_pos (by decide), hs]

theorem splitBranches_other {c : Char} (h1 : (c == '\\') = false)
    (h2 : (c == '|') = false) (X : List Char) (s : List Char)
    (ss : List (List Char)) (hs : splitBranches X = s :: ss) :
    splitBranches (c :: X) = (c :: s) :: ss := by
  rw [splitBranches.eq_def]
  dsimp only
  rw [if_neg (by simp [h1]), if_neg (by simp [h2]), hs]

theorem splitBranches_esc (c e : Char) (X : List Char) (s : List Char)
    (ss : List (List Char)) (hs : splitBranches X = s :: ss) :
    splitBranches ('\\' :: e :: X) = ('\\' :: e :: s) :: ss := by
  rw [splitBranches.eq_def]
  dsimp only
  rw [if_pos (by decide), hs]

theorem splitBranches_shape :
    ∀ cs : List Char, ∃ s ss, splitBranches cs = s :: ss := by
  intro cs
  have hmain : ∀ (n : Nat) (cs : List Char), cs.length ≤ n →
      ∃ s ss, splitBranches cs = s :: ss := by
    intro n
    induction n with
    | zero =>
        intro cs hc
        rcases cs with _ | ⟨c, rest⟩
        · exact ⟨[], [], rfl⟩
        · simp at hc
    | succ n ih =>
        intro cs hc
        rcases cs with _ | ⟨c, rest⟩
        · exact ⟨[], [], rfl⟩
        · by_cases h1 : c == '\\'
          · rcases rest with _ | ⟨e, rest2⟩
            · refine ⟨[c], [], ?_⟩
              rw [splitBranches.eq_def]
              dsimp only
              rw [if_pos h1]
              rfl
            · rcases ih rest2 (by simp at hc; omega) with ⟨s, ss, hs⟩
              refine ⟨c :: e :: s, ss, ?_⟩
              rw [splitBranches.eq_def]
              dsimp only
              rw [if_pos h1, hs]
              have hc2 : c = '\\' := by simpa using h1
              rw [hc2]
          · by_cases h2 : c == '|'
            · rcases ih rest (by simp at hc; omega) with ⟨s, ss, hs⟩
              have hc2 : c = '|' := by simpa using h2
              rw [hc2]
              exact ⟨[], s :: ss, splitBranches_bar rest s ss hs⟩
            · rcases ih rest (by simp at hc; omega) with ⟨s, ss, hs⟩
              refine ⟨c :: s, ss, splitBranches_other ?_ ?_ rest s ss hs⟩
              · exact Bool.not_eq_true _ |>.mp h1
              · exact Bool.not_eq_true _ |>.mp h2
  exact hmain cs.length cs le_rfl

theorem splitBranches_escaped_append :
    ∀ (k : List Char) (cs : List Char) (s : List Char) (ss : List (List Char)),
      splitBranches cs = s :: ss →
      splitBranches (escapeRegexChars true k ++ cs) =
        (escapeRegexChars true k ++ s) :: ss := by
  intro k
  induction k with
  | nil =>
      intro cs s ss h
      simpa [escapeRegexChars] using h
  | cons c rest ih =>
      intro cs s ss h
      rw [escapeRegexChars_cons]
      by_cases hm : isRegexMeta c
      · rw [if_pos hm]
        have hrec := ih cs s ss h
        rw [show (['\\', c] ++ escapeRegexChars true rest) ++ cs =
          '\\' :: c :: (escapeRegexChars true rest ++ cs) from by simp]
        rw [splitBranches_esc c c _ _ _ hrec]
        simp
      · rw [if_neg hm]
        have hrec := ih cs s ss h
        have hne1 : (c == '\\') = false := by
          simp only [beq_eq_false_iff_ne, ne_eq]
          intro hcon
          exact hm (by simp [isRegexMeta, hcon])
        have hne2 : (c == '|') = false := by
          simp only [beq_eq_false_iff_ne, ne_eq]
          intro hcon
          exact hm (by simp [isRegexMeta, hcon])
        rw [show ([c] ++ escapeRegexChars true rest) ++ cs =
          c :: (escapeRegexChars true rest ++ cs) from by simp]
        rw [splitBranches_other hne1 hne2 _ _ _ hrec]
        simp

theorem compileAll_cons (b : List Char) (bs : List (List Char)) :
    compileAll (b :: bs) =
      (match compileBranch b, compileAll bs with
       | some cb, some r => some (cb :: r)
       | _, _ => none) := rfl

theorem compileAll_escaped_join :
    ∀ ks : List (List Char), ks ≠ [] →
      compileAll (splitBranches (joinBarChars (ks.map (escapeRegexChars true)))) =
        some (ks.map litBranch) := by
  intro ks
  induction ks with
  | nil => intro h; exact absurd rfl h
  | cons k rest ih =>
      intro _
      cases rest with
      | nil =>
          have hsplit := splitBranches_escaped_append k [] [] [] rfl
          simp only [List.map_cons, List.map_nil, joinBarChars]
          rw [List.append_nil] at hsplit
          rw [hsplit]
          rw [compileAll_cons, compileBranch_escaped]
          simp [compileAll, litBranch]
      | cons k2 rest2 =>
          have hih := ih (by simp)
          rcases hs : splitBranches (joinBarChars ((k2 :: rest2).map
              (escapeRegexChars true))) with _ | ⟨s, ss⟩
          · rcases splitBranches_shape (joinBarChars ((k2 :: rest2).map
                (escapeRegexChars true))) with ⟨s, ss, hshape⟩
            rw [hshape] at hs
            exact absurd hs (by simp)
          · have hbar := splitBranches_bar _ _ _ hs
            have hsplit := splitBranches_escaped_append k _ _ _ hbar
            have hjoin : joinBarChars ((k :: k2 :: rest2).map
                (escapeRegexChars true)) =
                escapeRegexChars true k ++ '|' ::
                  joinBarChars ((k2 :: rest2).map (escapeRegexChars true)) := by
              simp [joinBarChars]
            rw [hjoin, hsplit]
            rw [hs] at hih
            rw [List.append_nil]
            rw [compileAll_cons, compileBranch_escaped, hih]
            simp

theorem litMatchesAt_cons (ic : Bool) (c d : Char) (rest cs2 : List Char) :
    litMatchesAt ic (c :: rest) (d :: cs2) =
      ((if ic then jsToLowerChar c == jsToLowerChar d else c == d) &&
        litMatchesAt ic rest cs2) := by
  simp only [litMatchesAt, List.length_cons, List.take_succ_cons, List.map_cons,
    List.cons_beq_cons, Nat.add_le_add_iff_right]
  rw [show (if ic then jsToLowerChar c == jsToLowerChar d else c == d) =
    ((if ic then jsToLowerChar c else c) == (if ic then jsToLowerChar d else d))
    from by cases ic <;> rfl]
  rw [Bool.and_left_comm]

theorem matchSeq_lit (ic : Bool) :
    ∀ (k cs : List Char),
      matchSeq ic (litBranch k) cs =
        (if litMatchesAt ic k cs then some k.length else none) := by
  intro k
  induction k with
  | nil =>
      intro cs
      simp [litBranch, matchSeq, litMatchesAt]
  | cons c rest ih =>
      intro cs
      cases cs with
      | nil =>
          simp [litBranch, matchSeq, litMatchesAt]
      | cons d cs2 =>
          rw [show litBranch (c :: rest) =
            (RAtom.lit c, RQuant.one) :: litBranch rest from rfl]
          rw [litMatchesAt_cons]
          simp only [matchSeq, atomMatch]
          by_cases hma : (if ic then jsToLowerChar c == jsToLowerChar d
              else c == d) = true
          · simp only [hma, Bool.true_and, if_true]
            rw [ih cs2]
            cases hl : litMatchesAt ic rest cs2 <;>
              simp [hl, List.length_cons]
          · rw [Bool.not_eq_true] at hma
            simp [hma]

/-- C5 (counterexample): a sequence is of JS object type, so it passes the
replacements validation without a TypeError (here the empty key set then
returns the text unchanged). -/
theorem replaceString_array_passes :
    replaceString (.str "a") (.arr []) {} = .ok "a" := by
  simp [replaceString, jsEntries]

/-- C5 (amended): `replaceString` throws a TypeError when the text is not a
string, and when the replacements value is not of JS object type (a mapping
or a sequence — sequences pass the `typeof` check); with `escapeRegex` on,
every key compiles — after escaping and joining — to its literal branch,
and a literal branch matches exactly where the key occurs literally
(case-folded under `ignoreCase`); with `escapeRegex` off, a bare `+` key
makes pattern compilation fail with a SyntaxError, provided the text is
non-empty (the early return precedes pattern construction). -/
theorem replaceString_errors_and_escaping :
    (∀ (t r : JValue) (o : ReplaceOptions), (∀ s, t ≠ .str s) →
      replaceString t r o = .error (.typeError "Input text must be a string")) ∧
    (∀ (s : String) (r : JValue) (o : ReplaceOptions),
      isMappingOrSequence r = false →
      replaceString (.str s) r o =
        .error (.typeError "Replacements must be an object")) ∧
    (∀ ks : List (List Char), ks ≠ [] →
      compileAll (splitBranches (joinBarChars (ks.map (escapeRegexChars true)))) =
        some (ks.map litBranch)) ∧
    (∀ (ic : Bool) (k cs : List Char),
      matchSeq ic (litBranch k) cs =
        (if litMatchesAt ic k cs then some k.length else none)) ∧
    (∀ (s : String) (v : JValue), s ≠ "" →
      replaceString (.str s) (.obj [("+", v)]) {escapeRegex := false} =
        .error (.syntaxError "Invalid regular expression")) := by
  refine ⟨?_, ?_, compileAll_escaped_join, matchSeq_lit, ?_⟩
  · intro t r o h
    cases t with
    | str s => exact absurd rfl (h s)
    | null => rfl
    | undef => rfl
    | bool b => rfl
    | num q => rfl
    | arr elems => rfl
    | obj fields => rfl
  · intro s r o hr
    cases r with
    | null => rfl
    | undef => rfl
    | bool b => rfl
    | num q => rfl
    | str s2 => rfl
    | arr elems => simp [isMappingOrSequence] at hr
    | obj fields => simp [isMappingOrSequence] at hr
  · intro s v hs
    simp [replaceString, jsEntries, hs, escapeRegexChars, isRegexMeta,
      joinBarChars, splitBranches, compileAll, compileBranch, compileBranchGo,
      peelQuant]

theorem replaceString_errors_and_escaping_witness :
    replaceString .null (.obj []) {} =
      .error (.typeError "Input text must be a string") ∧
    replaceString (.str "abc") .null {} =
      .error (.typeError "Replacements must be an object") ∧
    compileAll (splitBranches (joinBarChars
      ([['a', '+']].map (escapeRegexChars true)))) =
      some ([['a', '+']].map litBranch) ∧
    replaceString (.str "1 + 1 = 2") (.obj [("+", .str "plus")])
      {escapeRegex := false} = .error (.syntaxError "Invalid regular expression") :=
  ⟨replaceString_errors_and_escaping.1 .null (.obj []) {} (fun s h => by cases h),
   replaceString_errors_and_escaping.2.1 "abc" .null {} rfl,
   replaceString_errors_and_escaping.2.2.1 [['a', '+']] (by simp),
   replaceString_errors_and_escaping.2.2.2.2 "1 + 1 = 2" (.str "plus") (by decide)⟩

/-- C9: when several replacement keys could match at the same position, the
key appearing earlier in the map's iteration order wins — even when a later
key is longer — because the search pattern is the alternation of the keys in
map order and alternation takes the first matching branch; in particular
`replaceString("abc", {"ab": "X", "abc": "Y"}) == "Xc"`. -/
theorem replaceString_first_key_wins :
    (∀ (ic : Bool) (b : List (RAtom × RQuant))
        (bs : List (List (RAtom × RQuant))) (cs : List Char) (n : Nat),
      matchSeq ic b cs = some n → altMatch ic (b :: bs) cs = some n) ∧
    replaceString (.str "abc") (.obj [("ab", .str "X"), ("abc", .str "Y")]) {} =
      .ok "Xc" := by
  constructor
  · intro ic b bs cs n h
    simp [altMatch, h]
  · simp [replaceString, jsEntries, jsToString, escapeRegexChars, isRegexMeta,
      joinBarChars, splitBranches, compileAll, compileBranch, compileBranchGo,
      peelQuant, quantOf, altMatch, matchSeq, starMatch, maxRun, atomMatch,
      jsToLowerChar, replaceScan, replCallback]

theorem replaceString_first_key_wins_witness :
    altMatch true [litBranch ['a'], litBranch ['a', 'b']] ['a', 'b'] = some 1 :=
  replaceString_first_key_wins.1 true (litBranch ['a']) [litBranch ['a', 'b']]
    ['a', 'b'] 1
    (by simp [litBranch, matchSeq, atomMatch, jsToLowerChar, litMatchesAt])
